import Mathlib

set_option maxRecDepth 10000

/-
  Verification of the gravitational/version link-flag tool
  (src/cmd/linkflags/main.go) against its specification.

  The Go program is embedded shallowly:
  * the two fixed regular expressions (`semverPattern`, `goVersionPattern`)
    are implemented as executable matchers over `List Char` that realise
    Go's leftmost-first matching semantics for these particular anchored /
    searched patterns;
  * `strconv.Atoi` (64-bit `int` target) is modelled by `mustAtoi`, returning
    `none` where the Go code would receive an error and hence panic;
  * machine-`int` arithmetic is `Int` with an explicit two's-complement
    wrap (`wrap64`);
  * the external processes (git, go) are an explicit environment `Env` of
    their `CombinedOutput` results, and `main` becomes `runMain : Env → RunResult`.
-/

namespace GravVersion

/-- Character class `[0-9]` (also `\d`) of the Go regexps, by code point. -/
def isDigitB (c : Char) : Bool := decide (48 ≤ c.toNat ∧ c.toNat ≤ 57)

/-- Character class `[0-9a-f]` of `semverPattern`, by code point. -/
def isHexLower (c : Char) : Bool := isDigitB c || decide (97 ≤ c.toNat ∧ c.toNat ≤ 102)

/-- `versionPackage` constant from main.go. -/
def versionPackage : String := "github.com/gravitational/version"

/--
Matcher for `semverPattern = (.+)-([0-9]{1,})-g([0-9a-f]{14})$`, returning the
three submatches of the match Go's `FindStringSubmatchIndex` finds, or `none`.

The pattern is anchored at the end, so a match forces: the last 14 characters
are lowercase hex (group 3), preceded by the literals `g` and `-`, preceded by
the maximal run of digits bounded on the left by `-` (group 2; `[0-9]{1,}` is
greedy and a shorter run would be preceded by a digit, not `-`), preceded by
group 1: the maximal run of non-newline characters (Go `.` does not match
newline; the leftmost match start together with greedy `.+` make the run
maximal), which must be non-empty.  We compute on the reversed list.
-/
def semverDecomp? (l : List Char) : Option (List Char × List Char × List Char) :=
  match l.reverse.drop 14 with
  | g :: dash :: rest2 =>
    if g = 'g' ∧ dash = '-' ∧ (l.reverse.take 14).length = 14 ∧
        (l.reverse.take 14).all isHexLower then
      match rest2.dropWhile isDigitB with
      | dash2 :: tail2 =>
        if dash2 = '-' ∧ rest2.takeWhile isDigitB ≠ [] then
          if tail2.takeWhile (fun c => c != '\n') ≠ [] then
            some ((tail2.takeWhile (fun c => c != '\n')).reverse,
                  (rest2.takeWhile isDigitB).reverse,
                  (l.reverse.take 14).reverse)
          else none
        else none
      | [] => none
    else none
  | _ => none

/--
`semverify` from main.go: on a match of `semverPattern` it returns
`ExpandString(nil, "$1.$2+$3", version, match)` — i.e. only the expanded
template, built from the three submatches — and otherwise returns the
input unchanged.
-/
def semverify (version : String) : String :=
  match semverDecomp? version.data with
  | some (p, n, h) => ⟨p ++ '.' :: (n ++ '+' :: h)⟩
  | none => version

/--
A match of `goVersionPattern = go([1-9])\.(\d+)(?:.\d+)*` starts at a given
position iff the five characters there are `g`, `o`, a digit `1`-`9`, `.`,
and a digit (the trailing `(?:.\d+)*` can always match the empty string).
-/
def goWindowB : List Char → Bool
  | g :: o :: c :: dot :: d :: _ =>
    g == 'g' && o == 'o' && decide (49 ≤ c.toNat) && decide (c.toNat ≤ 57) &&
      dot == '.' && isDigitB d
  | _ => false

/--
Search for the leftmost match of `goVersionPattern` and return the two
capture groups: the major digit and the minor digit run (`(\d+)` is greedy,
so the run is maximal; the following `(?:.\d+)*` never forces it to give
characters back since the star can match zero repetitions).
-/
def goVerFind? : List Char → Option (Char × List Char)
  | [] => none
  | x :: rest =>
    if goWindowB (x :: rest) then
      some ((x :: rest).getD 2 ' ', ((x :: rest).drop 4).takeWhile isDigitB)
    else goVerFind? rest

/-- Decimal value of a digit run, as accumulated by `strconv`. -/
def digitsToNat (l : List Char) : Nat := l.foldl (fun a c => a * 10 + (c.toNat - 48)) 0

/-- Two's-complement wrap of Go's 64-bit `int` arithmetic. -/
def wrap64 (n : Int) : Int := (n + 2 ^ 63) % 2 ^ 64 - 2 ^ 63

/--
`mustAtoi` from main.go over `strconv.Atoi` (64-bit platform): an optional
sign, then a non-empty run of decimal digits, rejected (→ error → panic,
modelled as `none`) on any other shape and on values outside
`[-2^63, 2^63-1]`.
-/
def mustAtoi (s : String) : Option Int :=
  match s.data with
  | [] => none
  | c :: rest =>
    let digits := if c = '-' ∨ c = '+' then rest else c :: rest
    if digits ≠ [] ∧ digits.all isDigitB then
      if c = '-' then
        if digitsToNat digits ≤ 2 ^ 63 then some (-(digitsToNat digits : Int)) else none
      else
        if digitsToNat digits ≤ 2 ^ 63 - 1 then some ((digitsToNat digits : Int)) else none
    else none

/-- `toolVersionUnknown` from main.go. -/
def toolVersionUnknown : Int := 0

/--
`parseToolVersion` from main.go: find `goVersionPattern`, convert both capture
groups with `mustAtoi`, and encode `major*10 + minor` in Go `int` arithmetic;
without a match, return the `toolVersionUnknown` sentinel.  `none` models the
process panicking inside `mustAtoi`.
-/
def parseToolVersion (version : String) : Option Int :=
  match goVerFind? version.data with
  | some (c, minorDigits) => do
      let major ← mustAtoi ⟨[c]⟩
      let minor ← mustAtoi ⟨minorDigits⟩
      some (wrap64 (major * 10 + minor))
  | none => some toolVersionUnknown

/-- `clean` tree-state constant from main.go. -/
def clean : String := "clean"

/-- `dirty` tree-state constant from main.go. -/
def dirty : String := "dirty"

/-- `git.treeState`: empty (trimmed) `status --porcelain` output is clean. -/
def treeStateOfStatus (out : String) : String := if out = "" then clean else dirty

/--
The `linkFlag` closure in `main`: legacy space-separated `-X` setting for
encoded tool versions ≤ 14, `key=value` style beyond.
-/
def linkFlag (goVersion : Int) (key value : String) : String :=
  if goVersion ≤ 14 then "-X " ++ versionPackage ++ "." ++ key ++ " " ++ value
  else "-X " ++ versionPackage ++ "." ++ key ++ "=" ++ value

/-- `strings.Join` with a separator, as used for the final output line. -/
def stringsJoin : List String → String → String
  | [], _ => ""
  | [a], _ => a
  | a :: b :: t, sep => a ++ sep ++ stringsJoin (b :: t) sep

/-- `unicode.IsSpace` (the byte/rune set trimmed by `bytes.TrimSpace`). -/
def goIsSpace (c : Char) : Bool :=
  c.toNat ∈ [0x9, 0xA, 0xB, 0xC, 0xD, 0x20, 0x85, 0xA0, 0x1680] ||
  decide (0x2000 ≤ c.toNat ∧ c.toNat ≤ 0x200A) ||
  c.toNat ∈ [0x2028, 0x2029, 0x202F, 0x205F, 0x3000]

/-- `bytes.TrimSpace` on the character list. -/
def trimSpace (l : List Char) : List Char :=
  ((l.dropWhile goIsSpace).reverse.dropWhile goIsSpace).reverse

/-- `bytes.Split(out, []byte(" "))`: split on every single space. -/
def splitOnSpace : List Char → List (List Char)
  | [] => [[]]
  | c :: rest =>
    if c = ' ' then [] :: splitOnSpace rest
    else
      match splitOnSpace rest with
      | h :: t => (c :: h) :: t
      | [] => [[c]]

/--
The observable results of the external commands the program runs, each a
`CombinedOutput` (`.ok` payload) or an execution error (`.error` payload),
plus the `-pkg` flag value.
-/
structure Env where
  pkg : String
  goOut : Except String String
  revParseOut : Except String String
  statusOut : Except String String
  describeOut : Except String String

/-- Outcome of one invocation of `main`. -/
inductive RunResult where
  | fatal : String → RunResult
  | panicked : RunResult
  | output : String → RunResult
deriving DecidableEq

/-- `git.exec`: trims whitespace from the output on success only. -/
def gitExecResult (raw : Except String String) : Except String String :=
  match raw with
  | .ok out => .ok ⟨trimSpace out.data⟩
  | .error e => .error e

/--
`goToolVersion` from main.go: on command failure it returns the sentinel
together with an error (`(v, true)`); on success it parses the third
space-separated field when present, otherwise returns the sentinel with a
nil error (`(v, false)`).  `none` models a panic inside `parseToolVersion`.
-/
def goToolVersion (goOut : Except String String) : Option (Int × Bool) :=
  match goOut with
  | .error _ => some (toolVersionUnknown, true)
  | .ok out =>
    match (splitOnSpace out.data).drop 2 with
    | [] => some (toolVersionUnknown, false)
    | v :: _ => (parseToolVersion ⟨v⟩).map (fun tv => (tv, false))

/-- The raw describe string `main` ends up with: empty on a describe error. -/
def describedVersion (env : Env) : String :=
  match gitExecResult env.describeOut with
  | .error _ => ""
  | .ok v => v

/--
Lines 52–57 of main.go: a non-empty raw version is semverified and, on a
dirty tree, suffixed with `-dirty`; an empty one is left alone.
-/
def finalVersion (version treeState : String) : String :=
  if version ≠ "" then
    if treeState = dirty then semverify version ++ "-dirty" else semverify version
  else version

/-- A string ends with the literal `-dirty` suffix. -/
def EndsWithDirty (s : String) : Prop := ∃ w : String, s = w ++ "-dirty"

/--
`main` from main.go as a function of the external world: flag check, go tool
version (fatal on error), commit ID (fatal on error), tree state (fatal on
error), describe (soft failure → empty version), then the ordered link flags
joined with single spaces.
-/
def runMain (env : Env) : RunResult :=
  if env.pkg = "" then .fatal "pkg required"
  else
    match goToolVersion env.goOut with
    | none => .panicked
    | some (_, true) => .fatal "failed to determine go tool version"
    | some (goVersion, false) =>
      match gitExecResult env.revParseOut with
      | .error _ => .fatal "failed to obtain git commit ID"
      | .ok commitID =>
        match gitExecResult env.statusOut with
        | .error _ => .fatal "failed to determine git tree state"
        | .ok statusOut =>
          let treeState := treeStateOfStatus statusOut
          let version := finalVersion (describedVersion env) treeState
          .output (stringsJoin
            ((if commitID ≠ "" then
                [linkFlag goVersion "gitCommit" commitID,
                 linkFlag goVersion "gitTreeState" treeState]
              else []) ++
             (if version ≠ "" then [linkFlag goVersion "version" version] else []))
            " ")

/-! ### Generic list lemmas used by the matcher proofs -/

theorem takeWhile_append_of_all {P : Char → Bool} :
    ∀ (a b : List Char), (∀ x ∈ a, P x = true) →
      (a ++ b).takeWhile P = a ++ b.takeWhile P := by
  intro a
  induction a with
  | nil => intro b _; simp
  | cons x t ih =>
    intro b h
    have hx : P x = true := h x (List.mem_cons_self x t)
    simp only [List.cons_append, List.takeWhile_cons, hx, if_true]
    rw [ih b (fun y hy => h y (List.mem_cons_of_mem x hy))]

theorem dropWhile_append_of_all {P : Char → Bool} :
    ∀ (a b : List Char), (∀ x ∈ a, P x = true) →
      (a ++ b).dropWhile P = b.dropWhile P := by
  intro a
  induction a with
  | nil => intro b _; simp
  | cons x t ih =>
    intro b h
    have hx : P x = true := h x (List.mem_cons_self x t)
    simp only [List.cons_append, List.dropWhile_cons, hx, if_true]
    exact ih b (fun y hy => h y (List.mem_cons_of_mem x hy))

theorem takeWhile_head_not {P : Char → Bool} (b : List Char)
    (h : ∀ y, b.head? = some y → P y = false) : b.takeWhile P = [] := by
  cases b with
  | nil => rfl
  | cons y t => simp [List.takeWhile_cons, h y rfl]

theorem dropWhile_head_not {P : Char → Bool} (b : List Char)
    (h : ∀ y, b.head? = some y → P y = false) : b.dropWhile P = b := by
  cases b with
  | nil => rfl
  | cons y t => simp [List.dropWhile_cons, h y rfl]

theorem take_len_append (a b : List Char) : (a ++ b).take a.length = a := by
  simp

theorem drop_len_append (a b : List Char) : (a ++ b).drop a.length = b := by
  simp

/-! ### Properties of the `semverPattern` matcher -/

theorem rev_shape (p n h : List Char) :
    (p ++ '-' :: (n ++ '-' :: 'g' :: h)).reverse
      = h.reverse ++ 'g' :: '-' :: (n.reverse ++ '-' :: p.reverse) := by
  simp [List.reverse_append, List.append_assoc]

theorem rev_reassemble (A D G Z : List Char) :
    (A ++ 'g' :: '-' :: (D ++ '-' :: (G ++ Z))).reverse
      = Z.reverse ++ G.reverse ++ '-' :: (D.reverse ++ '-' :: 'g' :: A.reverse) := by
  simp [List.reverse_append, List.append_assoc]

theorem semverDecomp?_exact (p n h : List Char) (hp : p ≠ [])
    (hpc : ∀ c ∈ p, c ≠ '\n') (hn : n ≠ [])
    (hnd : ∀ c ∈ n, isDigitB c = true)
    (hh : ∀ c ∈ h, isHexLower c = true) (hlen : h.length = 14) :
    semverDecomp? (p ++ '-' :: (n ++ '-' :: 'g' :: h)) = some (p, n, h) := by
  have hlenr : h.reverse.length = 14 := by simpa using hlen
  have hdrop : (p ++ '-' :: (n ++ '-' :: 'g' :: h)).reverse.drop 14
      = 'g' :: '-' :: (n.reverse ++ '-' :: p.reverse) := by
    rw [rev_shape, ← hlenr, drop_len_append]
  have htake : (p ++ '-' :: (n ++ '-' :: 'g' :: h)).reverse.take 14 = h.reverse := by
    rw [rev_shape, ← hlenr, take_len_append]
  have hndr : ∀ c ∈ n.reverse, isDigitB c = true :=
    fun c hc => hnd c (List.mem_reverse.mp hc)
  have htw : (n.reverse ++ '-' :: p.reverse).takeWhile isDigitB = n.reverse := by
    rw [takeWhile_append_of_all _ _ hndr,
      takeWhile_head_not _ (by intro y hy; simp at hy; subst hy; decide)]
    simp
  have hdw : (n.reverse ++ '-' :: p.reverse).dropWhile isDigitB = '-' :: p.reverse := by
    rw [dropWhile_append_of_all _ _ hndr,
      dropWhile_head_not _ (by intro y hy; simp at hy; subst hy; decide)]
  have hg1 : p.reverse.takeWhile (fun c => c != '\n') = p.reverse := by
    rw [List.takeWhile_eq_self_iff]
    intro c hc
    simpa using hpc c (List.mem_reverse.mp hc)
  have hall : (h.reverse).all isHexLower = true := by
    rw [List.all_eq_true]
    intro c hc
    exact hh c (List.mem_reverse.mp hc)
  unfold semverDecomp?
  rw [hdrop, htake]
  simp [htw, hdw, hg1, hall, hlenr, hp, hn]

theorem semverDecomp?_sound {l p n h : List Char}
    (hd : semverDecomp? l = some (p, n, h)) :
    h.length = 14 ∧ p ≠ [] ∧ (∀ c ∈ p, c ≠ '\n') ∧ n ≠ [] ∧
      (∀ c ∈ n, isDigitB c = true) ∧ (∀ c ∈ h, isHexLower c = true) ∧
      ∃ u, l = u ++ p ++ '-' :: (n ++ '-' :: 'g' :: h) := by
  unfold semverDecomp? at hd
  cases hrest : l.reverse.drop 14 with
  | nil => rw [hrest] at hd; simp at hd
  | cons g t =>
    cases t with
    | nil => rw [hrest] at hd; simp at hd
    | cons dash rest2 =>
      rw [hrest] at hd
      simp only [] at hd
      split at hd
      case isFalse => simp at hd
      case isTrue hcond =>
        obtain ⟨hg, hdash, hlen14, hallhex⟩ := hcond
        cases hdw : rest2.dropWhile isDigitB with
        | nil => rw [hdw] at hd; simp at hd
        | cons dash2 tail2 =>
          rw [hdw] at hd
          simp only [] at hd
          split at hd
          case isFalse => simp at hd
          case isTrue hcond2 =>
            obtain ⟨hdash2, hdrev⟩ := hcond2
            split at hd
            case isFalse => simp at hd
            case isTrue hg1 =>
              have hrest' := Option.some.inj hd
              rw [Prod.mk.injEq, Prod.mk.injEq] at hrest'
              obtain ⟨hpeq, hneq, hheq⟩ := hrest'
              subst hpeq; subst hneq; subst hheq
              refine ⟨by simpa using hlen14, by simpa using hg1, ?_, by simpa using hdrev, ?_, ?_, ?_⟩
              · intro c hc
                have := List.mem_takeWhile_imp (List.mem_reverse.mp hc)
                simpa using this
              · intro c hc
                exact List.mem_takeWhile_imp (List.mem_reverse.mp hc)
              · intro c hc
                rw [List.all_eq_true] at hallhex
                exact hallhex c (List.mem_reverse.mp hc)
              · refine ⟨(tail2.dropWhile (fun c => c != '\n')).reverse, ?_⟩
                have hrest2 : rest2 = rest2.takeWhile isDigitB ++ '-' ::
                    (tail2.takeWhile (fun c => c != '\n') ++
                     tail2.dropWhile (fun c => c != '\n')) := by
                  conv_lhs =>
                    rw [← List.takeWhile_append_dropWhile (p := isDigitB) (l := rest2)]
                  rw [hdw, hdash2, List.takeWhile_append_dropWhile]
                have hlrev : l.reverse
                    = l.reverse.take 14 ++ 'g' :: '-' ::
                      (rest2.takeWhile isDigitB ++ '-' ::
                        (tail2.takeWhile (fun c => c != '\n') ++
                         tail2.dropWhile (fun c => c != '\n'))) := by
                  conv_lhs => rw [← List.take_append_drop 14 l.reverse]
                  rw [hrest, hg, hdash, ← hrest2]
                have := congrArg List.reverse hlrev
                rw [List.reverse_reverse, rev_reassemble] at this
                simpa [List.append_assoc] using this

theorem semverDecomp?_none_of_head {l : List Char} {c : Char}
    (hl : l.reverse.head? = some c) (hc : isHexLower c = false) :
    semverDecomp? l = none := by
  obtain ⟨B, hB⟩ : ∃ B, l.reverse = c :: B := by
    cases hr : l.reverse with
    | nil => rw [hr] at hl; simp at hl
    | cons a t =>
      rw [hr] at hl
      simp only [List.head?_cons, Option.some.injEq] at hl
      exact ⟨t, by rw [hl]⟩
  have htake : l.reverse.take 14 = c :: B.take 13 := by
    rw [hB, List.take_succ_cons]
  unfold semverDecomp?
  cases hrest : l.reverse.drop 14 with
  | nil => rfl
  | cons g t =>
    cases t with
    | nil => rfl
    | cons dash rest2 =>
      have hall : (List.take 14 l.reverse).all isHexLower = false := by
        rw [htake, List.all_cons, hc, Bool.false_and]
      simp [hall]

theorem semverDecomp?_none_of_fifteenth {l A : List Char} {c : Char} {B : List Char}
    (hl : l.reverse = A ++ c :: B) (hA : A.length = 14) (hc : c ≠ 'g') :
    semverDecomp? l = none := by
  have hdrop : l.reverse.drop 14 = c :: B := by rw [hl, ← hA, drop_len_append]
  unfold semverDecomp?
  rw [hdrop]
  cases B with
  | nil => rfl
  | cons b bs =>
    simp [hc]

theorem semverDecomp?_output_none {x p n h : List Char}
    (hd : semverDecomp? x = some (p, n, h)) :
    semverDecomp? (p ++ '.' :: (n ++ '+' :: h)) = none := by
  obtain ⟨hlen, -⟩ := semverDecomp?_sound hd
  refine semverDecomp?_none_of_fifteenth
    (A := h.reverse) (c := '+') (B := n.reverse ++ '.' :: p.reverse) ?_ (by simpa using hlen)
    (by decide)
  simp [List.reverse_append, List.append_assoc]

theorem semverDecomp?_dirty_none (w : String) :
    semverDecomp? ((w ++ "-dirty").data) = none := by
  refine semverDecomp?_none_of_head (c := 'y') ?_ (by decide)
  have : (w ++ "-dirty").data = w.data ++ "-dirty".data := by
    simp [String.data_append]
  rw [this]
  simp [List.reverse_append]

/-! ### Properties of the `goVersionPattern` matcher -/

theorem goVerFind?_eq_none {l : List Char}
    (h : ∀ i, i < l.length → goWindowB (l.drop i) = false) : goVerFind? l = none := by
  induction l with
  | nil => rfl
  | cons x rest ih =>
    have h0 : goWindowB (x :: rest) = false := by simpa using h 0 (by simp)
    unfold goVerFind?
    rw [h0]
    simp only [Bool.false_eq_true, if_false]
    exact ih (fun i hi => by simpa using h (i + 1) (by simpa using hi))

theorem goVerFind?_of_decomp (pre : List Char) (c : Char) (m q : List Char)
    (hc1 : 49 ≤ c.toNat) (hc2 : c.toNat ≤ 57) (hm : m ≠ [])
    (hmd : ∀ x ∈ m, isDigitB x = true)
    (hq : ∀ y, q.head? = some y → isDigitB y = false)
    (hpre : ∀ i, i < pre.length →
      goWindowB ((pre ++ 'g' :: 'o' :: c :: '.' :: (m ++ q)).drop i) = false) :
    goVerFind? (pre ++ 'g' :: 'o' :: c :: '.' :: (m ++ q)) = some (c, m) := by
  induction pre with
  | nil =>
    obtain ⟨d, ds, rfl⟩ : ∃ d ds, m = d :: ds := by
      cases m with
      | nil => exact absurd rfl hm
      | cons d ds => exact ⟨d, ds, rfl⟩
    have hd : isDigitB d = true := hmd d (List.mem_cons_self _ _)
    have hw : goWindowB ('g' :: 'o' :: c :: '.' :: (d :: ds ++ q)) = true := by
      simp [goWindowB, hc1, hc2, hd]
    have htw : (ds ++ q).takeWhile isDigitB = ds := by
      rw [takeWhile_append_of_all _ _ (fun y hy => hmd y (List.mem_cons_of_mem d hy)),
        takeWhile_head_not _ hq]
      simp
    rw [List.nil_append]
    unfold goVerFind?
    rw [hw]
    simp [List.takeWhile_cons, hd, htw]
  | cons x pre' ih =>
    have h0 : goWindowB (x :: (pre' ++ 'g' :: 'o' :: c :: '.' :: (m ++ q))) = false := by
      simpa using hpre 0 (by simp)
    rw [List.cons_append]
    unfold goVerFind?
    rw [h0]
    simp only [Bool.false_eq_true, if_false]
    exact ih (fun i hi => by simpa using hpre (i + 1) (by simpa using hi))

theorem goVerFind?_sound {l : List Char} {c : Char} {ds : List Char}
    (hf : goVerFind? l = some (c, ds)) :
    (49 ≤ c.toNat ∧ c.toNat ≤ 57) ∧ ds ≠ [] ∧ ∀ x ∈ ds, isDigitB x = true := by
  induction l with
  | nil => simp [goVerFind?] at hf
  | cons x rest ih =>
    unfold goVerFind? at hf
    by_cases hw : goWindowB (x :: rest) = true
    · rw [hw] at hf
      simp only [if_true] at hf
      match rest, hw with
      | o :: c' :: dot :: d :: r5, hw =>
        simp only [goWindowB, Bool.and_eq_true, beq_iff_eq, decide_eq_true_eq] at hw
        obtain ⟨⟨⟨⟨⟨-, -⟩, hb1⟩, hb2⟩, -⟩, hbd⟩ := hw
        simp only [List.getD_cons_succ, List.getD_cons_zero, List.drop_succ_cons,
          List.drop_zero, Option.some.injEq, Prod.mk.injEq] at hf
        obtain ⟨rfl, hds⟩ := hf
        rw [List.takeWhile_cons, hbd] at hds
        refine ⟨⟨hb1, hb2⟩, ?_, ?_⟩
        · rw [← hds]; simp
        · intro y hy
          rw [← hds] at hy
          rcases List.mem_cons.mp hy with rfl | hy'
          · exact hbd
          · exact List.mem_takeWhile_imp hy'
    · rw [Bool.not_eq_true] at hw
      rw [hw] at hf
      simp only [Bool.false_eq_true, if_false] at hf
      exact ih hf

/-! ### Properties of `mustAtoi` and `wrap64` -/

theorem pow63 : (2 : Int) ^ 63 = 9223372036854775808 := by norm_num

theorem pow64 : (2 : Int) ^ 64 = 18446744073709551616 := by norm_num

theorem wrap64_id {x : Int} (h1 : -(2 ^ 63) ≤ x) (h2 : x < 2 ^ 63) : wrap64 x = x := by
  unfold wrap64
  rw [pow63, pow64] at *
  omega

theorem wrap64_overflow {x : Int} (h1 : 2 ^ 63 ≤ x) (h2 : x < 2 ^ 63 + 2 ^ 64) :
    wrap64 x = x - 2 ^ 64 := by
  unfold wrap64
  rw [pow63, pow64] at *
  omega

theorem mustAtoi_digits {l : List Char} (hne : l ≠ [])
    (hd : ∀ x ∈ l, isDigitB x = true) :
    mustAtoi ⟨l⟩ =
      if digitsToNat l ≤ 2 ^ 63 - 1 then some ((digitsToNat l : Int)) else none := by
  obtain ⟨c, rest, rfl⟩ : ∃ c rest, l = c :: rest := by
    cases l with
    | nil => exact absurd rfl hne
    | cons c rest => exact ⟨c, rest, rfl⟩
  have hc : isDigitB c = true := hd c (List.mem_cons_self _ _)
  have hcm : ¬(c = '-' ∨ c = '+') := by
    rintro (rfl | rfl) <;> exact absurd hc (by decide)
  have hcminus : ¬(c = '-') := fun h => hcm (Or.inl h)
  have hall : (c :: rest).all isDigitB = true := List.all_eq_true.mpr hd
  show mustAtoi (String.mk (c :: rest)) = _
  unfold mustAtoi
  simp only [if_neg hcm]
  rw [if_pos ⟨List.cons_ne_nil _ _, hall⟩, if_neg hcminus]

/-! ### Assorted helper lemmas -/

theorem data_ne_nil {p : String} (h : p ≠ "") : p.data ≠ [] := by
  intro hc
  apply h
  apply String.ext
  rw [hc]

theorem semverify_of_none {s : String} (h : semverDecomp? s.data = none) :
    semverify s = s := by
  unfold semverify
  rw [h]

theorem runMain_ok (env : Env) (gv : Int) (cid st : String)
    (hpkg : env.pkg ≠ "")
    (hgo : goToolVersion env.goOut = some (gv, false))
    (hcid : gitExecResult env.revParseOut = .ok cid)
    (hst : gitExecResult env.statusOut = .ok st) :
    runMain env = .output (stringsJoin
      ((if cid ≠ "" then
          [linkFlag gv "gitCommit" cid,
           linkFlag gv "gitTreeState" (treeStateOfStatus st)]
        else []) ++
       (if finalVersion (describedVersion env) (treeStateOfStatus st) ≠ "" then
          [linkFlag gv "version" (finalVersion (describedVersion env) (treeStateOfStatus st))]
        else [])) " ") := by
  unfold runMain
  rw [if_neg hpkg, hgo, hcid, hst]

/-! ### Claims -/

/--
C1, counterexample: the claim says every raw describe string ending in
`<prefix>-<N>-g<H>` (N decimal digits, H exactly 14 hex digits) is rewritten
to `<prefix>.<N>+<H>`.  It fails when the prefix contains a newline: Go's `.`
does not match `\n`, so the match starts after the newline, and
`ExpandString` returns only the expanded template, dropping everything before
the match.  Here the claim demands `a\nb.1+0…0` but `semverify` yields
`b.1+0…0`.
-/
theorem semverify_claim_counterexample :
    "a\nb-1-g00000000000000" = "a\nb" ++ "-" ++ "1" ++ "-g" ++ "00000000000000" ∧
    semverify "a\nb-1-g00000000000000" = "b.1+00000000000000" ∧
    semverify "a\nb-1-g00000000000000" ≠ "a\nb" ++ "." ++ "1" ++ "+" ++ "00000000000000" := by
  exact ⟨by decide, by decide, by decide⟩

/--
C1, amended: for every string of the whole form `<prefix>-<N>-g<H>` where the
prefix is non-empty and newline-free, N is one or more decimal digits and H
is exactly 14 lowercase hex digits, `semverify` returns `<prefix>.<N>+<H>`;
and every string with no such decomposition at its end (for any split of
its front) is returned unchanged.
-/
theorem semverify_spec :
    (∀ p n h : String, p ≠ "" → (∀ c ∈ p.data, c ≠ '\n') → n ≠ "" →
      (∀ c ∈ n.data, isDigitB c = true) → (∀ c ∈ h.data, isHexLower c = true) →
      h.data.length = 14 →
      semverify (p ++ "-" ++ n ++ "-g" ++ h) = p ++ "." ++ n ++ "+" ++ h) ∧
    (∀ s : String,
      (¬ ∃ u p n h : List Char, s.data = u ++ p ++ '-' :: (n ++ '-' :: 'g' :: h) ∧
        p ≠ [] ∧ (∀ c ∈ p, c ≠ '\n') ∧ n ≠ [] ∧ (∀ c ∈ n, isDigitB c = true) ∧
        (∀ c ∈ h, isHexLower c = true) ∧ h.length = 14) →
      semverify s = s) := by
  constructor
  · intro p n h hp hpc hn hnd hh hlen
    have h1 : ("-" : String).data = ['-'] := rfl
    have h2 : ("-g" : String).data = ['-', 'g'] := rfl
    have h3 : ("." : String).data = ['.'] := rfl
    have h4 : ("+" : String).data = ['+'] := rfl
    have hdata : (p ++ "-" ++ n ++ "-g" ++ h).data
        = p.data ++ '-' :: (n.data ++ '-' :: 'g' :: h.data) := by
      simp [String.data_append, h1, h2, List.append_assoc]
    have hdec := semverDecomp?_exact p.data n.data h.data (data_ne_nil hp) hpc
      (data_ne_nil hn) hnd hh hlen
    unfold semverify
    rw [hdata, hdec]
    apply String.ext
    show p.data ++ '.' :: (n.data ++ '+' :: h.data) = _
    simp [String.data_append, h3, h4, List.append_assoc]
  · intro s hno
    cases hd : semverDecomp? s.data with
    | none => exact semverify_of_none hd
    | some t =>
      exfalso
      rcases t with ⟨p, n, h⟩
      obtain ⟨hlen, hp, hpc, hn, hnd, hh, u, hu⟩ := semverDecomp?_sound hd
      exact hno ⟨u, p, n, h, hu, hp, hpc, hn, hnd, hh, hlen⟩

theorem semverify_spec_witness :
    semverify "v1.0.0-3-gabcdef01234567" = "v1.0.0.3+abcdef01234567" ∧
    semverify "v1.2.3" = "v1.2.3" := by
  constructor
  · have h := semverify_spec.1 "v1.0.0" "3" "abcdef01234567" (by decide) (by decide)
      (by decide) (by decide) (by decide) (by decide)
    rw [show ("v1.0.0" ++ "-" ++ "3" ++ "-g" ++ "abcdef01234567" : String)
        = "v1.0.0-3-gabcdef01234567" from by decide,
      show ("v1.0.0" ++ "." ++ "3" ++ "+" ++ "abcdef01234567" : String)
        = "v1.0.0.3+abcdef01234567" from by decide] at h
    exact h
  · apply semverify_spec.2
    rintro ⟨u, p, n, h, heq, -, -, -, -, -, hlen⟩
    have hL := congrArg List.length heq
    have h6 : ("v1.2.3" : String).data.length = 6 := by decide
    simp only [h6, List.length_append, List.length_cons, hlen] at hL
    omega

/--
C8: `semverify` is a no-op on its own output: `semverify (semverify x) =
semverify x` for every string, a `-dirty`-suffixed output never matches the
trailing pattern (so it is also left unchanged), and the output of a
successful rewrite never matches the pattern again.
-/
theorem semverify_idempotent (x v : String) :
    semverify (semverify x) = semverify x ∧
    semverify (semverify v ++ "-dirty") = semverify v ++ "-dirty" ∧
    semverDecomp? ((semverify v ++ "-dirty").data) = none ∧
    (semverDecomp? x.data ≠ none → semverDecomp? ((semverify x).data) = none) := by
  have hdirty := semverDecomp?_dirty_none (semverify v)
  have hout : ∀ y : String, semverDecomp? y.data ≠ none →
      semverDecomp? ((semverify y).data) = none := by
    intro y hy
    cases hd : semverDecomp? y.data with
    | none => exact absurd hd hy
    | some t =>
      rcases t with ⟨p, n, h⟩
      have hs : semverify y = ⟨p ++ '.' :: (n ++ '+' :: h)⟩ := by
        unfold semverify
        rw [hd]
      rw [hs]
      exact semverDecomp?_output_none hd
  refine ⟨?_, semverify_of_none hdirty, hdirty, hout x⟩
  cases hd : semverDecomp? x.data with
  | none =>
    have hx := semverify_of_none hd
    rw [hx]
    exact hx
  | some t =>
    exact semverify_of_none (hout x (by rw [hd]; exact fun hc => Option.noConfusion hc))

theorem semverify_idempotent_witness :
    semverify (semverify "v1-2-gaaaaaaaaaaaaaa") = semverify "v1-2-gaaaaaaaaaaaaaa" ∧
    semverDecomp? ((semverify "v1-2-gaaaaaaaaaaaaaa").data) = none :=
  ⟨(semverify_idempotent "v1-2-gaaaaaaaaaaaaaa" "z").1,
   (semverify_idempotent "v1-2-gaaaaaaaaaaaaaa" "z").2.2.2 (by decide)⟩

/--
C5, counterexample: the claim says a clean tree never yields a final version
ending in `-dirty`.  But on a clean tree the code appends nothing, so a raw
describe string that itself ends in `-dirty` (e.g. a tag named `a-dirty`,
which does not match the rewrite pattern) passes through and the final
version ends in `-dirty` despite the clean state.
-/
theorem finalVersion_clean_counterexample :
    finalVersion "a-dirty" clean = "a" ++ "-dirty" ∧
    EndsWithDirty (finalVersion "a-dirty" clean) :=
  ⟨by decide, "a", by decide⟩

/--
C5, amended: for a non-empty version string and a dirty tree the final
version ends with `-dirty`; for a clean tree nothing is appended, so the
final version ends with `-dirty` only if the semverified input itself
already does.
-/
theorem finalVersion_dirty_suffix (v : String) :
    (v ≠ "" → EndsWithDirty (finalVersion v dirty)) ∧
    (¬ EndsWithDirty (semverify v) → ¬ EndsWithDirty (finalVersion v clean)) := by
  constructor
  · intro hv
    unfold finalVersion
    rw [if_pos hv, if_pos rfl]
    exact ⟨semverify v, rfl⟩
  · intro hnd
    unfold finalVersion
    by_cases hv : v = ""
    · rw [if_neg (by simp [hv])]
      subst hv
      rintro ⟨w, hw⟩
      have hlen := congrArg String.length hw
      rw [String.length_append] at hlen
      have h0 : ("" : String).length = 0 := by decide
      have h6 : ("-dirty" : String).length = 6 := by decide
      omega
    · rw [if_pos hv, if_neg (by decide)]
      exact hnd

theorem finalVersion_dirty_suffix_witness :
    EndsWithDirty (finalVersion "1.2.3" dirty) ∧
    ¬ EndsWithDirty (finalVersion "1.2.3" clean) := by
  constructor
  · exact (finalVersion_dirty_suffix "1.2.3").1 (by decide)
  · apply (finalVersion_dirty_suffix "1.2.3").2
    rintro ⟨w, hw⟩
    rw [show semverify "1.2.3" = "1.2.3" from by decide] at hw
    have hlen := congrArg String.length hw
    rw [String.length_append] at hlen
    have h5 : ("1.2.3" : String).length = 5 := by decide
    have h6 : ("-dirty" : String).length = 6 := by decide
    omega

/--
C3: the formatted link setting uses the legacy space-separated `-X` syntax
when the encoded tool version is at most 14 (14 itself included) and the
equals-separated syntax when it exceeds 14.
-/
theorem linkFlag_threshold (v : Int) (key value : String) :
    (v ≤ 14 → linkFlag v key value
        = "-X " ++ versionPackage ++ "." ++ key ++ " " ++ value) ∧
    (14 < v → linkFlag v key value
        = "-X " ++ versionPackage ++ "." ++ key ++ "=" ++ value) ∧
    linkFlag 14 key value = "-X " ++ versionPackage ++ "." ++ key ++ " " ++ value := by
  refine ⟨fun h => ?_, fun h => ?_, ?_⟩
  · unfold linkFlag
    rw [if_pos h]
  · unfold linkFlag
    rw [if_neg (not_le.mpr h)]
  · unfold linkFlag
    rw [if_pos (by norm_num)]

theorem linkFlag_threshold_witness :
    linkFlag 14 "gitCommit" "abc"
      = "-X " ++ versionPackage ++ "." ++ "gitCommit" ++ " " ++ "abc" ∧
    linkFlag 15 "gitCommit" "abc"
      = "-X " ++ versionPackage ++ "." ++ "gitCommit" ++ "=" ++ "abc" :=
  ⟨(linkFlag_threshold 14 "gitCommit" "abc").1 (by norm_num),
   (linkFlag_threshold 15 "gitCommit" "abc").2.1 (by norm_num)⟩

/--
C9, counterexample: the claim says every value returned by
`parseToolVersion` is the sentinel 0 or a real encoded version of at least
11.  But `go1.0` matches the pattern and encodes to `1*10 + 0 = 10`, which
is neither 0 nor ≥ 11.
-/
theorem parseToolVersion_go1_0 :
    parseToolVersion "go1.0" = some 10 ∧ ¬((10 : Int) = 0 ∨ 11 ≤ (10 : Int)) :=
  ⟨by decide, by decide⟩

/--
C9, amended: every value `parseToolVersion` returns (when it does not panic)
is the sentinel 0, or a real encoded version between 10 and 2^63−1, or — when
the 64-bit computation `major*10 + minor` overflows for a huge captured minor
— a wrapped negative value in `[−2^63, −2^63+89]`.  In particular the
sentinel is distinguishable from every real encoded version.
-/
theorem parseToolVersion_range (s : String) (v : Int)
    (h : parseToolVersion s = some v) :
    v = 0 ∨ (10 ≤ v ∧ v ≤ 2 ^ 63 - 1) ∨ (-(2 ^ 63) ≤ v ∧ v ≤ -(2 ^ 63) + 89) := by
  unfold parseToolVersion at h
  cases hf : goVerFind? s.data with
  | none =>
    rw [hf] at h
    left
    have := Option.some.inj h
    rw [← this]
    rfl
  | some t =>
    rcases t with ⟨c, ds⟩
    obtain ⟨⟨hc1, hc2⟩, hds, hdd⟩ := goVerFind?_sound hf
    have hcd : isDigitB c = true := by
      simp only [isDigitB, decide_eq_true_eq]
      omega
    have hM : mustAtoi ⟨[c]⟩ = some ((c.toNat - 48 : Nat) : Int) := by
      rw [mustAtoi_digits (by simp) (by intro x hx; rw [List.mem_singleton] at hx; subst hx; exact hcd)]
      rw [if_pos (by simp [digitsToNat]; omega)]
      simp [digitsToNat]
    rw [hf] at h
    have h2 : (Option.bind (mustAtoi ⟨[c]⟩) fun major =>
        Option.bind (mustAtoi ⟨ds⟩) fun minor =>
          some (wrap64 (major * 10 + minor))) = some v := h
    cases hm : mustAtoi ⟨ds⟩ with
    | none =>
      rw [hM, hm] at h2
      exact Option.noConfusion h2
    | some mv =>
      rw [hM, hm] at h2
      have h := Option.some.inj h2
      have hmv := mustAtoi_digits hds hdd
      rw [hm] at hmv
      by_cases hb : digitsToNat ds ≤ 2 ^ 63 - 1
      · rw [if_pos hb] at hmv
        have hmv' : mv = ((digitsToNat ds : Nat) : Int) := Option.some.inj hmv
        have hmv0 : 0 ≤ mv := by rw [hmv']; positivity
        have hmvB : mv ≤ 2 ^ 63 - 1 := by
          rw [hmv']
          have hb' : ((digitsToNat ds : Nat) : Int) ≤ ((2 ^ 63 - 1 : Nat) : Int) := by
            exact_mod_cast hb
          have he : ((2 ^ 63 - 1 : Nat) : Int) = 2 ^ 63 - 1 := by norm_num
          rw [he] at hb'
          exact hb'
        have hM1 : (1 : Int) ≤ ((c.toNat - 48 : Nat) : Int) := by
          have : 1 ≤ c.toNat - 48 := by omega
          exact_mod_cast this
        have hM9 : ((c.toNat - 48 : Nat) : Int) ≤ 9 := by
          have : c.toNat - 48 ≤ 9 := by omega
          exact_mod_cast this
        rcases le_or_lt (((c.toNat - 48 : Nat) : Int) * 10 + mv) (2 ^ 63 - 1) with hle | hgt
        · right; left
          rw [← h, wrap64_id (by omega) (by omega)]
          omega
        · right; right
          rw [← h, wrap64_overflow (by omega) (by omega)]
          omega
      · rw [if_neg hb] at hmv
        simp at hmv

theorem parseToolVersion_range_witness :
    (12 : Int) = 0 ∨ ((10 : Int) ≤ 12 ∧ (12 : Int) ≤ 2 ^ 63 - 1) ∨
      (-(2 ^ 63) ≤ (12 : Int) ∧ (12 : Int) ≤ -(2 ^ 63) + 89) :=
  parseToolVersion_range "go1.2" 12 (by decide)

/--
C10: the claim says `mustAtoi` can never panic when called from
`parseToolVersion` — and the code's own comment asserts the captured groups
"are integers" — but a captured minor of 19 digits passes the regex while
exceeding 2^63−1, so `strconv.Atoi` returns a range error and `mustAtoi`
panics.  This theorem evaluates the model at such an input: `none` is the
panic outcome.
-/
theorem parseToolVersion_overflow_panics :
    parseToolVersion "go1.9999999999999999999" = none := by decide

/--
C2, counterexample: the claim says every string containing a token
`go<major>.<minor>` parses to `major*10 + minor`.  But the pattern requires
the major to be a single digit `[1-9]`, so `go10.4` (major 10) does not
match anywhere and the sentinel 0 is returned instead of 104.
-/
theorem parseToolVersion_go10_4 :
    ("go10.4" : String) = "go" ++ "10" ++ "." ++ "4" ∧
    parseToolVersion "go10.4" = some 0 ∧ (0 : Int) ≠ 10 * 10 + 4 :=
  ⟨by decide, by decide, by decide⟩

/--
C2, amended: for a string containing a token `go<c>.<minor>` where `c` is a
single digit 1–9 and `minor` a maximal run of decimal digits, with no
earlier position matching the pattern and the minor small enough not to
overflow, `parseToolVersion` returns `c*10 + minor`; a string with no
position matching the pattern yields the sentinel 0.
-/
theorem parseToolVersion_spec :
    (∀ (p : String) (c : Char) (m q : String),
      49 ≤ c.toNat → c.toNat ≤ 57 → m ≠ "" →
      (∀ x ∈ m.data, isDigitB x = true) →
      (∀ y, q.data.head? = some y → isDigitB y = false) →
      (∀ i, i < p.data.length →
        goWindowB ((p ++ "go" ++ String.singleton c ++ "." ++ m ++ q).data.drop i) = false) →
      digitsToNat m.data ≤ 2 ^ 63 - 91 →
      parseToolVersion (p ++ "go" ++ String.singleton c ++ "." ++ m ++ q)
        = some (((c.toNat - 48) * 10 + digitsToNat m.data : Nat) : Int)) ∧
    (∀ s : String, (∀ i, i < s.data.length → goWindowB (s.data.drop i) = false) →
      parseToolVersion s = some 0) := by
  constructor
  · intro p c m q hc1 hc2 hm hmd hq hpre hbound
    have hgo : ("go" : String).data = ['g', 'o'] := rfl
    have hdot : ("." : String).data = ['.'] := rfl
    have hsing : (String.singleton c).data = [c] := rfl
    have hdata : (p ++ "go" ++ String.singleton c ++ "." ++ m ++ q).data
        = p.data ++ 'g' :: 'o' :: c :: '.' :: (m.data ++ q.data) := by
      simp [String.data_append, hgo, hdot, hsing, List.append_assoc]
    have hfind := goVerFind?_of_decomp p.data c m.data q.data hc1 hc2
      (data_ne_nil hm) hmd hq (by intro i hi; rw [← hdata]; exact hpre i hi)
    have hcd : isDigitB c = true := by
      simp only [isDigitB, decide_eq_true_eq]
      omega
    have hMa : mustAtoi ⟨[c]⟩ = some ((c.toNat - 48 : Nat) : Int) := by
      rw [mustAtoi_digits (by simp) (by intro x hx; rw [List.mem_singleton] at hx; subst hx; exact hcd)]
      rw [if_pos (by simp [digitsToNat]; omega)]
      simp [digitsToNat]
    have hma : mustAtoi ⟨m.data⟩ = some ((digitsToNat m.data : Nat) : Int) := by
      rw [mustAtoi_digits (data_ne_nil hm) hmd]
      rw [if_pos (by omega)]
    have hcomp : parseToolVersion (p ++ "go" ++ String.singleton c ++ "." ++ m ++ q)
        = some (wrap64 (((c.toNat - 48 : Nat) : Int) * 10
            + ((digitsToNat m.data : Nat) : Int))) := by
      unfold parseToolVersion
      rw [hdata, hfind]
      show (Option.bind (mustAtoi ⟨[c]⟩) fun major =>
          Option.bind (mustAtoi ⟨m.data⟩) fun minor =>
            some (wrap64 (major * 10 + minor))) = _
      rw [hMa, hma]
      rfl
    rw [hcomp]
    have h9 : ((c.toNat - 48 : Nat) : Int) ≤ 9 := by
      have : c.toNat - 48 ≤ 9 := by omega
      exact_mod_cast this
    have h1 : (1 : Int) ≤ ((c.toNat - 48 : Nat) : Int) := by
      have : 1 ≤ c.toNat - 48 := by omega
      exact_mod_cast this
    have hB : ((digitsToNat m.data : Nat) : Int) ≤ 2 ^ 63 - 91 := by
      have hb' : ((digitsToNat m.data : Nat) : Int) ≤ ((2 ^ 63 - 91 : Nat) : Int) := by
        exact_mod_cast hbound
      have he : ((2 ^ 63 - 91 : Nat) : Int) = 2 ^ 63 - 91 := by norm_num
      rw [he] at hb'
      exact hb'
    have hB0 : (0 : Int) ≤ ((digitsToNat m.data : Nat) : Int) := by positivity
    rw [wrap64_id (by omega) (by omega)]
    congr 1
  · intro s hw
    unfold parseToolVersion
    rw [goVerFind?_eq_none hw]
    rfl

theorem parseToolVersion_spec_witness :
    parseToolVersion ("x " ++ "go" ++ String.singleton '2' ++ "." ++ "1" ++ "") = some 21 ∧
    parseToolVersion "abc" = some 0 := by
  constructor
  · have h := parseToolVersion_spec.1 "x " '2' "1" "" (by decide) (by decide) (by decide)
      (by decide) (by intro y hy; exact Option.noConfusion hy) (by decide) (by decide)
    rw [h]
    decide
  · exact parseToolVersion_spec.2 "abc" (by decide)

theorem goToolVersion_ok_not_error (out : String) (r : Int × Bool)
    (hr : goToolVersion (Except.ok out) = some r) : r.2 = false := by
  have hr2 : (match List.drop 2 (splitOnSpace out.data) with
      | [] => some (toolVersionUnknown, false)
      | v :: _ => Option.map (fun tv => (tv, false)) (parseToolVersion ⟨v⟩)) = some r := hr
  cases hsp : List.drop 2 (splitOnSpace out.data) with
  | nil =>
    rw [hsp] at hr2
    have := Option.some.inj hr2
    rw [← this]
  | cons v t =>
    rw [hsp] at hr2
    obtain ⟨tv, -, htv⟩ := Option.map_eq_some'.mp hr2
    rw [← htv]

/--
C4, counterexample: the claim says an unparseable tool-version output is
fatal to the run.  But `goToolVersion` returns the sentinel with a nil error
whenever the command itself succeeds, so with output `go version weird` the
run proceeds (sentinel 0 selects the legacy syntax) and prints settings
instead of aborting.
-/
theorem unparseable_not_fatal :
    goToolVersion (Except.ok "go version weird") = some (0, false) ∧
    runMain ⟨"p", Except.ok "go version weird", Except.ok "abc0",
        Except.ok "", Except.error "no tags"⟩
      = RunResult.output
          "-X github.com/gravitational/version.gitCommit abc0 -X github.com/gravitational/version.gitTreeState clean" :=
  ⟨by decide, by decide⟩

/--
C4, amended: only the command-failure case of the tool-version lookup is
fatal: a failing `go version` command aborts the run before any settings are
printed, while a successful command whose output cannot be parsed yields the
unknown sentinel with a nil error and the run proceeds.
-/
theorem goToolVersion_failure_handling (env : Env) (e out : String)
    (hpkg : env.pkg ≠ "") :
    (env.goOut = .error e → runMain env = .fatal "failed to determine go tool version") ∧
    (env.goOut = .ok out → ∀ r, goToolVersion env.goOut = some r → r.2 = false) ∧
    (env.goOut = .ok out → runMain env ≠ .fatal "failed to determine go tool version") := by
  refine ⟨fun h => ?_, fun h r hr => ?_, fun h hcon => ?_⟩
  · unfold runMain
    rw [if_neg hpkg, h]
    rfl
  · rw [h] at hr
    exact goToolVersion_ok_not_error out r hr
  · have hok : ∀ r, goToolVersion env.goOut = some r → r.2 = false := by
      intro r hr
      rw [h] at hr
      exact goToolVersion_ok_not_error out r hr
    unfold runMain at hcon
    rw [if_neg hpkg] at hcon
    cases hg : goToolVersion env.goOut with
    | none =>
      rw [hg] at hcon
      exact RunResult.noConfusion hcon
    | some r =>
      rcases r with ⟨tv, b⟩
      cases b with
      | true => exact Bool.noConfusion (hok (tv, true) hg)
      | false =>
        rw [hg] at hcon
        cases hrv : gitExecResult env.revParseOut with
        | error e1 =>
          rw [hrv] at hcon
          exact absurd (RunResult.fatal.inj hcon) (by decide)
        | ok cid =>
          rw [hrv] at hcon
          cases hst : gitExecResult env.statusOut with
          | error e2 =>
            rw [hst] at hcon
            exact absurd (RunResult.fatal.inj hcon) (by decide)
          | ok st =>
            rw [hst] at hcon
            exact RunResult.noConfusion hcon

theorem goToolVersion_failure_handling_witness :
    runMain ⟨"p", Except.error "boom", Except.ok "a", Except.ok "", Except.ok "v1"⟩
      = RunResult.fatal "failed to determine go tool version" ∧
    runMain ⟨"p", Except.ok "go version weird2", Except.ok "a", Except.ok "", Except.ok "v1"⟩
      ≠ RunResult.fatal "failed to determine go tool version" := by
  constructor
  · exact (goToolVersion_failure_handling
      ⟨"p", Except.error "boom", Except.ok "a", Except.ok "", Except.ok "v1"⟩
      "boom" "x" (by decide)).1 rfl
  · exact (goToolVersion_failure_handling
      ⟨"p", Except.ok "go version weird2", Except.ok "a", Except.ok "", Except.ok "v1"⟩
      "e" "go version weird2" (by decide)).2.2 rfl

/--
C6: in every successful run the output line is exactly the commit/tree-state
pair (present iff the commit ID is non-empty) followed by the version setting
(present iff the final version is non-empty), in that fixed order, joined
with single spaces; no other settings exist.
-/
theorem emission_rules (env : Env) (gv : Int) (cid st : String)
    (hpkg : env.pkg ≠ "")
    (hgo : goToolVersion env.goOut = some (gv, false))
    (hcid : gitExecResult env.revParseOut = .ok cid)
    (hst : gitExecResult env.statusOut = .ok st) :
    runMain env = .output (stringsJoin
      ((if cid ≠ "" then
          [linkFlag gv "gitCommit" cid,
           linkFlag gv "gitTreeState" (treeStateOfStatus st)]
        else []) ++
       (if finalVersion (describedVersion env) (treeStateOfStatus st) ≠ "" then
          [linkFlag gv "version" (finalVersion (describedVersion env) (treeStateOfStatus st))]
        else [])) " ") :=
  runMain_ok env gv cid st hpkg hgo hcid hst

theorem emission_rules_witness :
    runMain ⟨"p", Except.ok "go version go1.21.3 linux", Except.ok "deadbeef",
        Except.ok " M x.go", Except.ok "v1.0.0-3-gabcdef01234567"⟩
      = RunResult.output
          "-X github.com/gravitational/version.gitCommit=deadbeef -X github.com/gravitational/version.gitTreeState=dirty -X github.com/gravitational/version.version=v1.0.0.3+abcdef01234567-dirty" := by
  have h := emission_rules
    ⟨"p", Except.ok "go version go1.21.3 linux", Except.ok "deadbeef",
      Except.ok " M x.go", Except.ok "v1.0.0-3-gabcdef01234567"⟩
    31 "deadbeef" "M x.go" (by decide) (by decide) rfl rfl
  rw [h]
  decide

/--
C7: a failed describe query does not abort the run: the version becomes
empty, the version setting is omitted entirely, and the commit/tree-state
pair (for the non-empty commit ID) is still emitted on its own.
-/
theorem describe_failure_soft (env : Env) (gv : Int) (cid st e : String)
    (hpkg : env.pkg ≠ "") (hgo : goToolVersion env.goOut = some (gv, false))
    (hcid : gitExecResult env.revParseOut = .ok cid) (hne : cid ≠ "")
    (hst : gitExecResult env.statusOut = .ok st)
    (hdesc : env.describeOut = .error e) :
    runMain env = .output (stringsJoin
      [linkFlag gv "gitCommit" cid,
       linkFlag gv "gitTreeState" (treeStateOfStatus st)] " ") := by
  have hdv : describedVersion env = "" := by
    unfold describedVersion gitExecResult
    rw [hdesc]
  have hfv : finalVersion (describedVersion env) (treeStateOfStatus st) = "" := by
    rw [hdv]
    rfl
  rw [runMain_ok env gv cid st hpkg hgo hcid hst, hfv]
  simp [hne]

theorem describe_failure_soft_witness :
    runMain ⟨"p", Except.ok "go version go1.4 linux", Except.ok "c0ffee",
        Except.ok "", Except.error "fatal: no tags"⟩
      = RunResult.output
          "-X github.com/gravitational/version.gitCommit c0ffee -X github.com/gravitational/version.gitTreeState clean" := by
  have h := describe_failure_soft
    ⟨"p", Except.ok "go version go1.4 linux", Except.ok "c0ffee",
      Except.ok "", Except.error "fatal: no tags"⟩
    14 "c0ffee" "" "fatal: no tags" (by decide) (by decide) rfl (by decide)
    rfl rfl
  rw [h]
  decide

end GravVersion
